import Mathlib

/-!
# Verification of the simple_trading_system MACD pipeline

Shallow embedding of the MACD trading strategy repository: the TA-Lib
`MACD` indicator (as called by `MACDStrategy.calculate_macd` in
`src/strategy.py`), the stateful crossover loop of
`MACDStrategy.generate_signals`, the order-placement step of the
backtest adapter (`src/backtest.py`), the data-preparation routine
`BacktestRunner._prepare_data`, and the parameter grid built by
`BacktestRunner.optimize_strategy`.

Prices and indicator values are modelled as rationals; an undefined
("not-a-number") indicator entry is `Option.none`.
-/

namespace TradingSys

/-! ## TA-Lib MACD

`MACDStrategy.calculate_macd` delegates to `talib.MACD`.  The embedding
below follows TA-Lib's `TA_MACD` / `TA_INT_MACD` / `TA_INT_EMA`
(classic compatibility, unstable period 0):

* an EMA over `period` is seeded with the simple average of the first
  `period` inputs of its window and then updated by
  `ema + (x - ema) * k` with `k = 2/(period+1)`;
* if the slow period is smaller than the fast one, the two are swapped;
* both the fast and the slow EMA start producing values at index
  `slow-1`; the fast EMA is therefore seeded with the average of the
  prices at indices `slow-fast .. slow-1`;
* the signal line is the EMA of the macd line over `signal_period`;
* all three outputs begin at index `(slow-1)+(signal-1)`; the Python
  wrapper pads the prefix with not-a-number entries.
-/

/-- One EMA update of TA-Lib's `TA_INT_EMA`: `(x - ema) * k + ema`. -/
def emaStep (k e x : ℚ) : ℚ := (x - e) * k + e

/-- `TA_INT_EMA` restricted to the values at indices `start .. len-1`:
seeded with the simple average of the inputs at
`start-period+1 .. start`, then updated by `emaStep` with
`k = 2/(period+1)`.  Empty when `start` is out of range or the seed
window does not fit. -/
def taEMAFrom (xs : List ℚ) (period start : ℕ) : List ℚ :=
  if start < xs.length ∧ period - 1 ≤ start ∧ 0 < period then
    List.scanl (fun e x => emaStep (2 / ((period : ℚ) + 1)) e x)
      (((xs.drop (start + 1 - period)).take period).sum / (period : ℚ))
      (xs.drop (start + 1))
  else []

/-- The three outputs of `talib.MACD`, aligned 1:1 with the input;
`none` is a not-a-number entry. -/
structure MACDResult where
  macd_line : List (Option ℚ)
  signal_line : List (Option ℚ)
  histogram : List (Option ℚ)
deriving DecidableEq

/-- `TA_INT_MACD`: swap the periods so that the slow one is the larger,
compute both EMAs from index `slow-1`, the signal line as the EMA of
the macd line, and pad all three outputs with a not-a-number prefix of
length `(slow-1)+(signal-1)`. -/
def taMACDcore (fast slow sigp : ℕ) (prices : List ℚ) : MACDResult :=
  let f := min fast slow
  let s := max fast slow
  let lookback := (s - 1) + (sigp - 1)
  let slowEMA := taEMAFrom prices s (s - 1)
  let fastEMA := taEMAFrom prices f (s - 1)
  let macdFull := List.zipWith (fun a b => a - b) fastEMA slowEMA
  let sigVals := taEMAFrom macdFull sigp (sigp - 1)
  let macdOut := macdFull.drop (sigp - 1)
  let histOut := List.zipWith (fun a b => a - b) macdOut sigVals
  let pad : List (Option ℚ) := List.replicate (min lookback prices.length) none
  ⟨pad ++ macdOut.map some, pad ++ sigVals.map some, pad ++ histOut.map some⟩

/-- `talib.MACD` as called from Python: `TA_MACD` rejects a fast or
slow period outside `[2, 100000]` and a signal period outside
`[1, 100000]` with `TA_BAD_PARAM` (raised as an exception by the
wrapper); otherwise it runs `TA_INT_MACD`. -/
def taMACD (fast slow sigp : ℤ) (prices : List ℚ) : Except String MACDResult :=
  if 2 ≤ fast ∧ fast ≤ 100000 ∧ 2 ≤ slow ∧ slow ≤ 100000 ∧
      1 ≤ sigp ∧ sigp ≤ 100000 then
    .ok (taMACDcore fast.toNat slow.toNat sigp.toNat prices)
  else
    .error "TA_BAD_PARAM"

/-! ## MACDStrategy (`src/strategy.py`) -/

/-- The `MACDStrategy` object: the three periods plus the mutable
state set up in `__init__` (`self.position = 0`, `self.last_signal =
None`). -/
structure MACDStrategy where
  fast_period : ℤ
  slow_period : ℤ
  signal_period : ℤ
  position : ℤ
  last_signal : Option ℤ
deriving DecidableEq

/-- `MACDStrategy.__init__`: stores the three periods and initializes
the mutable state.  The body contains no validation and no statement
that can raise, so construction always succeeds. -/
def MACDStrategy.init (fast slow sigp : ℤ) : Except String MACDStrategy :=
  .ok ⟨fast, slow, sigp, 0, none⟩

/-- `MACDStrategy.calculate_macd`: calls `talib.MACD` on the close
prices with the stored periods. -/
def MACDStrategy.calculate_macd (st : MACDStrategy) (prices : List ℚ) :
    Except String MACDResult :=
  taMACD st.fast_period st.slow_period st.signal_period prices

/-- The signal-generation loop of `MACDStrategy.generate_signals`
(`for i in range(1, len(result))`), with `k` iterations left and `i`
the current index.  Returns the `Signal` entries, the `Position`
entries (both for indices `i .. i+k-1`) and the final value of
`self.position`.  A not-a-number read leaves both columns at their
initial `0` (`continue`); an upward cross writes `Signal = 1` and sets
the position to `1`; a downward cross writes `Signal = -1` and sets the
position to `-1`; otherwise `Signal` stays `0`; in every non-skipped
iteration `Position` receives the current position. -/
def genFrom (macd sig : List (Option ℚ)) :
    (k : ℕ) → (i : ℕ) → (pos : ℤ) → List ℤ × List ℤ × ℤ
  | 0, _, pos => ([], [], pos)
  | k + 1, i, pos =>
    match macd.getD (i - 1) none, sig.getD (i - 1) none,
        macd.getD i none, sig.getD i none with
    | some pm, some ps, some cm, some cs =>
      if pm ≤ ps ∧ cs < cm then
        let rest := genFrom macd sig k (i + 1) 1
        (1 :: rest.1, 1 :: rest.2.1, rest.2.2)
      else if ps ≤ pm ∧ cm < cs then
        let rest := genFrom macd sig k (i + 1) (-1)
        (-1 :: rest.1, -1 :: rest.2.1, rest.2.2)
      else
        let rest := genFrom macd sig k (i + 1) pos
        (0 :: rest.1, pos :: rest.2.1, rest.2.2)
    | _, _, _, _ =>
      let rest := genFrom macd sig k (i + 1) pos
      (0 :: rest.1, 0 :: rest.2.1, rest.2.2)

/-- The `Signal` and `Position` columns produced by
`MACDStrategy.generate_signals` together with the strategy state after
the call. -/
structure SignalsOutput where
  signals : List ℤ
  positions : List ℤ
  finalPos : ℤ
deriving DecidableEq

/-- The signal-generation part of `MACDStrategy.generate_signals`,
given the macd and signal columns: `Signal` and `Position` are
initialized to `0`, the loop runs over indices `1 .. n-1` carrying
`self.position`. -/
def generateSignalsCore (macd sig : List (Option ℚ)) (n : ℕ) (pos0 : ℤ) :
    SignalsOutput :=
  match n with
  | 0 => ⟨[], [], pos0⟩
  | m + 1 =>
    let r := genFrom macd sig m 1 pos0
    ⟨0 :: r.1, 0 :: r.2.1, r.2.2⟩

/-- `MACDStrategy.generate_signals`, state threaded explicitly: copy
the frame, compute the indicator columns via `calculate_macd`
(propagating its exception), then run the signal loop.  Returns the
indicator columns, the signal output and the updated strategy object. -/
def MACDStrategy.generate_signals (st : MACDStrategy) (prices : List ℚ) :
    Except String (MACDResult × SignalsOutput × MACDStrategy) := do
  let r ← st.calculate_macd prices
  let out := generateSignalsCore r.macd_line r.signal_line prices.length st.position
  .ok (r, out, { st with position := out.finalPos })

/-- `MACDStrategy.generate_signals` for in-range periods, taking the
periods as naturals: the composition of `TA_INT_MACD` and the signal
loop, starting from strategy position `pos0`. -/
def runStrategy (fast slow sigp : ℕ) (prices : List ℚ) (pos0 : ℤ) :
    SignalsOutput :=
  let r := taMACDcore fast slow sigp prices
  generateSignalsCore r.macd_line r.signal_line prices.length pos0

/-! ## Helper lemmas about the signal loop -/

/-- The signal decision the loop body takes at index `i`: `1` on an
upward cross, `-1` on a downward cross, `0` otherwise (including any
not-a-number read). -/
def sigAt (macd sig : List (Option ℚ)) (i : ℕ) : ℤ :=
  match macd.getD (i - 1) none, sig.getD (i - 1) none,
      macd.getD i none, sig.getD i none with
  | some pm, some ps, some cm, some cs =>
    if pm ≤ ps ∧ cs < cm then 1 else if ps ≤ pm ∧ cm < cs then -1 else 0
  | _, _, _, _ => 0

lemma genFrom_fst (macd sig : List (Option ℚ)) :
    ∀ (k i : ℕ) (pos : ℤ),
      (genFrom macd sig k i pos).1
        = (List.range k).map (fun j => sigAt macd sig (i + j)) := by
  intro k
  induction k with
  | zero => intro i pos; rfl
  | succ k ih =>
    intro i pos
    rw [List.range_succ_eq_map, List.map_cons, List.map_map]
    have hrest : ∀ p : ℤ, (genFrom macd sig k (i + 1) p).1
        = (List.range k).map ((fun j => sigAt macd sig (i + j)) ∘ Nat.succ) := by
      intro p
      rw [ih (i + 1) p]
      refine List.map_congr_left fun j _ => ?_
      simp only [Function.comp]
      congr 1
      omega
    show (genFrom macd sig (k + 1) i pos).1 = _
    unfold genFrom
    simp only [Nat.add_zero]
    unfold sigAt
    rcases macd.getD (i - 1) none with _ | pm <;>
        rcases sig.getD (i - 1) none with _ | ps <;>
        rcases macd.getD i none with _ | cm <;>
        rcases sig.getD i none with _ | cs <;>
      simp only [Nat.add_zero] <;>
      first
      | exact congrArg (0 :: ·) (hrest pos)
      | (split_ifs <;>
          first
          | exact congrArg (1 :: ·) (hrest 1)
          | exact congrArg ((-1) :: ·) (hrest (-1))
          | exact congrArg (0 :: ·) (hrest pos))

lemma genFrom_snd_range (macd sig : List (Option ℚ)) :
    ∀ (k i : ℕ) (pos : ℤ), (pos = -1 ∨ pos = 0 ∨ pos = 1) →
      (∀ x ∈ (genFrom macd sig k i pos).2.1, x = -1 ∨ x = 0 ∨ x = 1) ∧
      ((genFrom macd sig k i pos).2.2 = -1 ∨ (genFrom macd sig k i pos).2.2 = 0 ∨
        (genFrom macd sig k i pos).2.2 = 1) := by
  intro k
  induction k with
  | zero =>
    intro i pos hpos
    exact ⟨fun x hx => absurd hx (List.not_mem_nil x), hpos⟩
  | succ k ih =>
    intro i pos hpos
    show (∀ x ∈ (genFrom macd sig (k + 1) i pos).2.1, _) ∧ _
    unfold genFrom
    rcases macd.getD (i - 1) none with _ | pm <;>
        rcases sig.getD (i - 1) none with _ | ps <;>
        rcases macd.getD i none with _ | cm <;>
        rcases sig.getD i none with _ | cs <;>
      simp only [] <;>
      [skip; skip; skip; skip; skip; skip; skip; skip;
        skip; skip; skip; skip; skip; skip; skip; split_ifs] <;>
      refine ⟨fun x hx => ?_, (ih (i + 1) _ (by tauto)).2⟩ <;>
      rcases List.mem_cons.mp hx with h | h <;>
      first
      | (subst h; tauto)
      | exact (ih (i + 1) _ (by tauto)).1 x h

lemma runStrategy_signals_getD (fast slow sigp : ℕ) (prices : List ℚ) (pos0 : ℤ)
    (i : ℕ) (h1 : 1 ≤ i) (h2 : i < prices.length) :
    (runStrategy fast slow sigp prices pos0).signals.getD i 0
      = sigAt (taMACDcore fast slow sigp prices).macd_line
          (taMACDcore fast slow sigp prices).signal_line i := by
  unfold runStrategy generateSignalsCore
  rcases hn : prices.length with _ | m
  · omega
  · simp only []
    obtain ⟨j, rfl⟩ : ∃ j, i = j + 1 := ⟨i - 1, by omega⟩
    rw [List.getD_cons_succ, genFrom_fst]
    rw [List.getD_eq_getElem?_getD, List.getElem?_map, List.getElem?_range (by omega)]
    simp [Nat.add_comm 1 j]

lemma generateSignalsCore_signals_indep (macd sig : List (Option ℚ)) (n : ℕ)
    (p q : ℤ) :
    (generateSignalsCore macd sig n p).signals
      = (generateSignalsCore macd sig n q).signals := by
  cases n with
  | zero => rfl
  | succ m =>
    unfold generateSignalsCore
    simp only [genFrom_fst]

/-- Claim C10: the `Signal` column returned by `generate_signals` is
determined solely by the input close column and the periods; two
strategy instances whose carried mutable state (`position`,
`last_signal`) differs arbitrarily return identical `Signal`
columns. -/
theorem C10_signals_state_independent (fast slow sigp : ℤ) (prices : List ℚ)
    (p1 p2 : ℤ) (l1 l2 : Option ℤ) :
    (MACDStrategy.generate_signals ⟨fast, slow, sigp, p1, l1⟩ prices).map
        (fun r => r.2.1.signals)
      = (MACDStrategy.generate_signals ⟨fast, slow, sigp, p2, l2⟩ prices).map
        (fun r => r.2.1.signals) := by
  unfold MACDStrategy.generate_signals MACDStrategy.calculate_macd taMACD
  split
  · simp only [bind, Except.bind, Except.map]
    rw [generateSignalsCore_signals_indep _ _ _ p1 p2]
  · rfl

/-- Claim C1, counterexample: with periods (2, 3, 2) on the close
series [10, 10, 10, 8, 14, 227/18, 15] the generator emits Buy at bar
4 and Buy again at bar 6, with only Hold in between (the histogram
touches zero exactly at bar 5, so no Sell separates the two Buys).
This refutes the "previous non-hold emission was not already Buy"
guard and the same-sign alternation invariant. -/
theorem C1_counterexample :
    (runStrategy 2 3 2 [10, 10, 10, 8, 14, 227/18, 15] 0).signals.getD 4 0 = 1 ∧
    (runStrategy 2 3 2 [10, 10, 10, 8, 14, 227/18, 15] 0).signals.getD 5 0 = 0 ∧
    (runStrategy 2 3 2 [10, 10, 10, 8, 14, 227/18, 15] 0).signals.getD 6 0 = 1 := by
  norm_num [runStrategy, taMACDcore, taEMAFrom, emaStep, generateSignalsCore, genFrom,
    List.scanl, List.replicate_succ, List.getD_cons_succ, List.getD_cons_zero]

/-- Claim C1 (amended): at every bar `i` whose current and previous
(macd, signal) values are both defined, the generator emits Buy
exactly when `macd[i-1] ≤ signal[i-1]` and `macd[i] > signal[i]`, and
Sell exactly when `macd[i-1] ≥ signal[i-1]` and `macd[i] < signal[i]`,
regardless of any previous emission; consecutive same-sign non-hold
signals are possible (see the counterexample). -/
theorem C1_buy_iff_cross (fast slow sigp : ℕ) (prices : List ℚ) (pos0 : ℤ)
    (i : ℕ) (h1 : 1 ≤ i) (h2 : i < prices.length) (pm ps cm cs : ℚ)
    (hpm : (taMACDcore fast slow sigp prices).macd_line.getD (i - 1) none = some pm)
    (hps : (taMACDcore fast slow sigp prices).signal_line.getD (i - 1) none = some ps)
    (hcm : (taMACDcore fast slow sigp prices).macd_line.getD i none = some cm)
    (hcs : (taMACDcore fast slow sigp prices).signal_line.getD i none = some cs) :
    ((runStrategy fast slow sigp prices pos0).signals.getD i 0 = 1
        ↔ pm ≤ ps ∧ cs < cm) ∧
    ((runStrategy fast slow sigp prices pos0).signals.getD i 0 = -1
        ↔ ps ≤ pm ∧ cm < cs) := by
  rw [runStrategy_signals_getD fast slow sigp prices pos0 i h1 h2]
  unfold sigAt
  rw [hpm, hps, hcm, hcs]
  simp only []
  split_ifs with hb hs
  · refine ⟨⟨fun _ => hb, fun _ => rfl⟩, ⟨fun h => by norm_num at h, fun hd => ?_⟩⟩
    exact absurd (hb.2.trans hd.2) (lt_irrefl _)
  · exact ⟨⟨fun h => by norm_num at h, fun hbuy => absurd hbuy hb⟩,
      ⟨fun _ => hs, fun _ => rfl⟩⟩
  · exact ⟨⟨fun h => by norm_num at h, fun hbuy => absurd hbuy hb⟩,
      ⟨fun h => by norm_num at h, fun hsell => absurd hsell hs⟩⟩

/-- Witness for `C1_buy_iff_cross` at bar 4 of the counterexample
series. -/
theorem C1_buy_iff_cross_witness :
    ((runStrategy 2 3 2 [10, 10, 10, 8, 14, 227/18, 15] 0).signals.getD 4 0 = 1
        ↔ (-1/3 : ℚ) ≤ -1/6 ∧ (23/54 : ℚ) < 13/18) ∧
    ((runStrategy 2 3 2 [10, 10, 10, 8, 14, 227/18, 15] 0).signals.getD 4 0 = -1
        ↔ (-1/6 : ℚ) ≤ -1/3 ∧ (13/18 : ℚ) < 23/54) :=
  C1_buy_iff_cross 2 3 2 [10, 10, 10, 8, 14, 227/18, 15] 0 4 (by norm_num) (by norm_num)
    (-1/3) (-1/6) (13/18) (23/54)
    (by norm_num [taMACDcore, taEMAFrom, emaStep, List.scanl, List.replicate_succ,
      List.getD_cons_succ, List.getD_cons_zero])
    (by norm_num [taMACDcore, taEMAFrom, emaStep, List.scanl, List.replicate_succ,
      List.getD_cons_succ, List.getD_cons_zero])
    (by norm_num [taMACDcore, taEMAFrom, emaStep, List.scanl, List.replicate_succ,
      List.getD_cons_succ, List.getD_cons_zero])
    (by norm_num [taMACDcore, taEMAFrom, emaStep, List.scanl, List.replicate_succ,
      List.getD_cons_succ, List.getD_cons_zero])

/-- Claim C3, counterexample: with periods (2, 3, 2) on the close
series [10, 10, 10, 12, 14, 16, 12, 8, 6] the downward cross at bar 6
sets `self.position = -1` and records `-1` in the `Position` column: a
short position state, contradicting the two-state {Flat, Long}
claim. -/
theorem C3_counterexample :
    (runStrategy 2 3 2 [10, 10, 10, 12, 14, 16, 12, 8, 6] 0).positions.getD 6 0 = -1 ∧
    (runStrategy 2 3 2 [10, 10, 10, 12, 14, 16, 12, 8, 6] 0).finalPos = -1 := by
  norm_num [runStrategy, taMACDcore, taEMAFrom, emaStep, generateSignalsCore, genFrom,
    List.scanl, List.replicate_succ, List.getD_cons_succ, List.getD_cons_zero]

/-- Claim C3 (amended): the position state maintained by
`generate_signals`, started from the freshly constructed strategy
(`self.position = 0`), takes exactly the three values 0 (flat),
1 (long) and -1 (short); a downward cross records the short state -1
(see the counterexample). -/
theorem C3_position_range (fast slow sigp : ℕ) (prices : List ℚ) :
    (∀ x ∈ (runStrategy fast slow sigp prices 0).positions,
        x = -1 ∨ x = 0 ∨ x = 1) ∧
    ((runStrategy fast slow sigp prices 0).finalPos = -1 ∨
      (runStrategy fast slow sigp prices 0).finalPos = 0 ∨
      (runStrategy fast slow sigp prices 0).finalPos = 1) := by
  unfold runStrategy generateSignalsCore
  rcases prices.length with _ | m
  · exact ⟨fun x hx => absurd hx (List.not_mem_nil x), Or.inr (Or.inl rfl)⟩
  · simp only []
    have h := genFrom_snd_range (taMACDcore fast slow sigp prices).macd_line
      (taMACDcore fast slow sigp prices).signal_line m 1 0 (Or.inr (Or.inl rfl))
    refine ⟨fun x hx => ?_, h.2⟩
    rcases List.mem_cons.mp hx with h0 | hmem
    · exact Or.inr (Or.inl h0)
    · exact h.1 x hmem

/-- Witness for `C3_position_range` at the counterexample series: the
recorded value -1 is in the allowed range. -/
theorem C3_position_range_witness :
    (-1 : ℤ) ∈ (runStrategy 2 3 2 [10, 10, 10, 12, 14, 16, 12, 8, 6] 0).positions ∧
    ((-1 : ℤ) = -1 ∨ (-1 : ℤ) = 0 ∨ (-1 : ℤ) = 1) := by
  have hmem : (-1 : ℤ) ∈ (runStrategy 2 3 2 [10, 10, 10, 12, 14, 16, 12, 8, 6] 0).positions := by
    norm_num [runStrategy, taMACDcore, taEMAFrom, emaStep, generateSignalsCore, genFrom,
      List.scanl, List.replicate_succ, List.getD_cons_succ, List.getD_cons_zero]
  exact ⟨hmem, (C3_position_range 2 3 2 [10, 10, 10, 12, 14, 16, 12, 8, 6]).1 (-1) hmem⟩

/-! ## Prefix stability of the indicator

The EMA recursion is causal: every output value depends only on the
inputs up to its own index.  Extending the input series therefore
leaves the already-computed prefix of the indicator unchanged, which
is what makes `generate_signals` re-entrant. -/

lemma taEMAFrom_length (xs : List ℚ) (period start : ℕ) :
    (taEMAFrom xs period start).length
      = if start < xs.length ∧ period - 1 ≤ start ∧ 0 < period
        then xs.length - start else 0 := by
  by_cases h : start < xs.length ∧ period - 1 ≤ start ∧ 0 < period
  · rw [taEMAFrom, if_pos h, if_pos h, List.length_scanl, List.length_drop]
    omega
  · rw [taEMAFrom, if_neg h, if_neg h]
    rfl

lemma scanl_append_take {α β : Type} (f : β → α → β) (b : β) (xs ys : List α) :
    (List.scanl f b (xs ++ ys)).take (xs.length + 1) = List.scanl f b xs := by
  induction xs generalizing b with
  | nil =>
    cases ys with
    | nil => rfl
    | cons y ys => simp [List.scanl_cons]
  | cons x xs ih =>
    rw [List.cons_append, List.scanl_cons, List.singleton_append, List.length_cons,
      List.take_succ_cons, ih (f b x), List.scanl_cons, List.singleton_append]

lemma taEMAFrom_append_take (P Q : List ℚ) (period start : ℕ) :
    (taEMAFrom (P ++ Q) period start).take (P.length - start)
      = taEMAFrom P period start := by
  by_cases hP : start < P.length ∧ period - 1 ≤ start ∧ 0 < period
  · rw [taEMAFrom, taEMAFrom, if_pos hP,
      if_pos (⟨by rw [List.length_append]; omega, hP.2⟩ :
        start < (P ++ Q).length ∧ period - 1 ≤ start ∧ 0 < period)]
    have hseed : ((P ++ Q).drop (start + 1 - period)).take period
        = (P.drop (start + 1 - period)).take period := by
      rw [List.drop_append_of_le_length (by omega),
        List.take_append_of_le_length (by rw [List.length_drop]; omega)]
    rw [List.drop_append_of_le_length (by omega : start + 1 ≤ P.length), hseed]
    have hlen : P.length - start = (P.drop (start + 1)).length + 1 := by
      rw [List.length_drop]
      omega
    rw [hlen]
    exact scanl_append_take _ _ _ _
  · rw [taEMAFrom, taEMAFrom, if_neg hP]
    by_cases hPQ : start < (P ++ Q).length ∧ period - 1 ≤ start ∧ 0 < period
    · rw [if_pos hPQ]
      have h0 : P.length - start = 0 := by
        rcases hPQ with ⟨_, hp2, hp3⟩
        have : ¬ start < P.length := fun h => hP ⟨h, hp2, hp3⟩
        omega
      rw [h0, List.take_zero]
    · rw [if_neg hPQ, List.take_nil]

lemma taMACDcore_take (fast slow sigp : ℕ) (hf : 0 < fast) (hfs : fast ≤ slow)
    (hg : 0 < sigp) (P Q : List ℚ) :
    ((taMACDcore fast slow sigp (P ++ Q)).macd_line.take P.length
        = (taMACDcore fast slow sigp P).macd_line) ∧
    ((taMACDcore fast slow sigp (P ++ Q)).signal_line.take P.length
        = (taMACDcore fast slow sigp P).signal_line) := by
  have hmin : min fast slow = fast := min_eq_left hfs
  have hmax : max fast slow = slow := max_eq_right hfs
  unfold taMACDcore
  rw [hmin, hmax]
  dsimp only
  set n := P.length with hn
  set s1 := slow - 1 with hs1
  set g1 := sigp - 1 with hg1
  set L := s1 + g1 with hL
  set A' := taEMAFrom (P ++ Q) slow s1 with hA'
  set B' := taEMAFrom (P ++ Q) fast s1 with hB'
  set A := taEMAFrom P slow s1 with hA
  set B := taEMAFrom P fast s1 with hB
  set M' := List.zipWith (fun a b => a - b) B' A' with hM'
  set M := List.zipWith (fun a b => a - b) B A with hM
  have h1 : A'.take (n - s1) = A := taEMAFrom_append_take P Q slow s1
  have h2 : B'.take (n - s1) = B := taEMAFrom_append_take P Q fast s1
  have hMt : M'.take (n - s1) = M := by
    rw [hM', List.take_zipWith, h1, h2]
  have hAlen : A.length = if s1 < n then n - s1 else 0 := by
    rw [hA, taEMAFrom_length]
    have : (s1 < n ∧ slow - 1 ≤ s1 ∧ 0 < slow) ↔ s1 < n := by
      constructor
      · exact fun h => h.1
      · exact fun h => ⟨h, le_refl _, by omega⟩
    simp only [this]
  have hBlen : B.length = if s1 < n then n - s1 else 0 := by
    rw [hB, taEMAFrom_length]
    have : (s1 < n ∧ fast - 1 ≤ s1 ∧ 0 < fast) ↔ s1 < n := by
      constructor
      · exact fun h => h.1
      · exact fun h => ⟨h, by omega, hf⟩
    simp only [this]
  have hMlen : M.length = if s1 < n then n - s1 else 0 := by
    rw [hM, List.length_zipWith, hBlen, hAlen]
    split <;> simp
  have hMsplit : M' = M ++ M'.drop (n - s1) := by
    conv_lhs => rw [← List.take_append_drop (n - s1) M']
    rw [hMt]
  have hSt : (taEMAFrom M' sigp g1).take (M.length - g1) = taEMAFrom M sigp g1 := by
    rw [hMsplit]
    exact taEMAFrom_append_take M (M'.drop (n - s1)) sigp g1
  have hOt : (M'.drop g1).take (M.length - g1) = M.drop g1 := by
    by_cases hgM : g1 ≤ M.length
    · rw [hMsplit, List.drop_append_of_le_length hgM]
      have : M.length - g1 = (M.drop g1).length := by rw [List.length_drop]
      rw [this, List.take_left]
    · have hz : M.length - g1 = 0 := by omega
      rw [hz, List.take_zero]
      rw [List.drop_eq_nil_of_le (by omega)]
  constructor
  · -- macd line
    by_cases hnL : n ≤ L
    · have hpadP : min L n = n := min_eq_right hnL
      have hout : M.drop g1 = [] := by
        refine List.drop_eq_nil_of_le ?_
        rw [hMlen]
        split <;> omega
      rw [hout, hpadP]
      simp only [List.map_nil, List.append_nil]
      rw [List.take_append_of_le_length
        (by rw [List.length_replicate, List.length_append]; omega),
        List.take_replicate, List.length_append]
      congr 1
      omega
    · have hn' : min L (P.length + Q.length) = L := by
        rw [min_eq_left]
        omega
      have hpadP : min L n = L := min_eq_left (by omega)
      rw [List.length_append, hn', hpadP]
      have htake : n = (List.replicate L (none : Option ℚ)).length + (n - L) := by
        rw [List.length_replicate]
        omega
      rw [htake, List.take_append, ← List.map_take]
      have hML : M.length - g1 = n - L := by
        rw [hMlen, if_pos (by omega)]
        omega
      rw [← hML, hOt]
  · -- signal line
    by_cases hnL : n ≤ L
    · have hpadP : min L n = n := min_eq_right hnL
      have hout : taEMAFrom M sigp g1 = [] := by
        have : ¬ (g1 < M.length ∧ sigp - 1 ≤ g1 ∧ 0 < sigp) := by
          rw [hMlen]
          intro hcon
          rcases hcon with ⟨hlt, _, _⟩
          revert hlt
          split <;> omega
        rw [taEMAFrom, if_neg this]
      rw [hout, hpadP]
      simp only [List.map_nil, List.append_nil]
      rw [List.take_append_of_le_length
        (by rw [List.length_replicate, List.length_append]; omega),
        List.take_replicate, List.length_append]
      congr 1
      omega
    · have hn' : min L (P.length + Q.length) = L := by
        rw [min_eq_left]
        omega
      have hpadP : min L n = L := min_eq_left (by omega)
      rw [List.length_append, hn', hpadP]
      have htake : n = (List.replicate L (none : Option ℚ)).length + (n - L) := by
        rw [List.length_replicate]
        omega
      rw [htake, List.take_append, ← List.map_take]
      have hML : M.length - g1 = n - L := by
        rw [hMlen, if_pos (by omega)]
        omega
      rw [← hML, hSt]

lemma take_getD_eq {α : Type} (xs ys : List α) (n : ℕ) (h : xs.take n = ys)
    (j : ℕ) (hj : j < n) (d : α) : xs.getD j d = ys.getD j d := by
  subst h
  rw [List.getD_eq_getElem?_getD, List.getD_eq_getElem?_getD, List.getElem?_take,
    if_pos hj]

lemma sigAt_congr (m s m2 s2 : List (Option ℚ)) (i : ℕ)
    (h1 : m.getD (i - 1) none = m2.getD (i - 1) none)
    (h2 : s.getD (i - 1) none = s2.getD (i - 1) none)
    (h3 : m.getD i none = m2.getD i none)
    (h4 : s.getD i none = s2.getD i none) :
    sigAt m s i = sigAt m2 s2 i := by
  unfold sigAt
  rw [h1, h2, h3, h4]

/-- Claim C7: the signal generator is re-entrant.  For every close
series `P` and extension `P ++ Q`, running `generate_signals` on
`P ++ Q` while carrying forward the strategy state left by processing
`P` reproduces, on the bars of `P`, exactly the signals of the run on
`P` alone. -/
theorem C7_reentrant (fast slow sigp : ℕ) (hf : 0 < fast) (hfs : fast ≤ slow)
    (hg : 0 < sigp) (P Q : List ℚ) (pos0 : ℤ) :
    ((runStrategy fast slow sigp (P ++ Q)
        ((runStrategy fast slow sigp P pos0).finalPos)).signals).take P.length
      = (runStrategy fast slow sigp P pos0).signals := by
  obtain ⟨hmacd, hsig⟩ := taMACDcore_take fast slow sigp hf hfs hg P Q
  set pos' := (runStrategy fast slow sigp P pos0).finalPos with hpos'
  unfold runStrategy generateSignalsCore
  rcases hn : P.length with _ | m
  · have hP : P = [] := List.length_eq_zero.mp hn
    subst hP
    rw [List.take_zero]
  · have hn' : (P ++ Q).length = (m + Q.length) + 1 := by
      rw [List.length_append, hn]
      omega
    rw [hn']
    simp only []
    rw [List.take_succ_cons]
    congr 1
    rw [genFrom_fst, genFrom_fst, ← List.map_take, List.take_range,
      min_eq_left (by omega : m ≤ m + Q.length)]
    refine List.map_congr_left fun j hj => ?_
    have hjm : j < m := List.mem_range.mp hj
    refine sigAt_congr _ _ _ _ _ ?_ ?_ ?_ ?_ <;>
      refine take_getD_eq _ _ P.length (by assumption) _ (by omega) none

/-- Witness for `C7_reentrant`: periods (2, 3, 2), prefix
[10, 10, 10, 8, 14] extended by [227/18, 15]. -/
theorem C7_reentrant_witness :
    ((runStrategy 2 3 2 ([10, 10, 10, 8, 14] ++ [227/18, 15])
        ((runStrategy 2 3 2 [10, 10, 10, 8, 14] 0).finalPos)).signals).take
          ([10, 10, 10, 8, 14] : List ℚ).length
      = (runStrategy 2 3 2 [10, 10, 10, 8, 14] 0).signals :=
  C7_reentrant 2 3 2 (by norm_num) (by norm_num) (by norm_num)
    [10, 10, 10, 8, 14] [227/18, 15] 0

/-! ## Warm-up prefix of the indicator -/

lemma padded_line (L' n : ℕ) (X : List ℚ) (hXlen : X.length = n - L') :
    ((List.replicate (min L' n) (none : Option ℚ) ++ X.map some).length = n) ∧
    (∀ i < n, ((List.replicate (min L' n) (none : Option ℚ) ++ X.map some).getD i none = none
        ↔ i < L')) := by
  constructor
  · rw [List.length_append, List.length_replicate, List.length_map]
    omega
  · intro i hi
    by_cases hiL : i < min L' n
    · rw [List.getD_eq_getElem?_getD, List.getElem?_append_left
        (by rw [List.length_replicate]; exact hiL), List.getElem?_replicate, if_pos hiL]
      exact ⟨fun _ => by omega, fun _ => rfl⟩
    · have hL'n : min L' n = L' := by omega
      have hiL' : L' ≤ i := by omega
      have hbound : i - L' < X.length := by omega
      rw [List.getD_eq_getElem?_getD, List.getElem?_append_right
          (by rw [List.length_replicate, hL'n]; exact hiL'),
        List.length_replicate, hL'n, List.getElem?_map,
        List.getElem?_eq_getElem hbound]
      exact ⟨fun h => absurd h (by simp), fun h => absurd h (by omega)⟩

/-- Claim C2 (amended): for every valid parameter triple
(2 ≤ fast < slow, 1 ≤ signal) and every close series, each of the
three indicator outputs has the length of the input and an entry is
undefined exactly when its index is below `max(fast,slow)+signal-2`
— one less than the `max(fast,slow)+signal-1` stated in the
specification: TA-Lib's MACD lookback is `(slow-1)+(signal-1)`. -/
theorem C2_output_shape (fast slow sigp : ℕ) (prices : List ℚ)
    (hf : 2 ≤ fast) (hfs : fast < slow) (hg : 1 ≤ sigp) :
    ((taMACDcore fast slow sigp prices).macd_line.length = prices.length ∧
     (taMACDcore fast slow sigp prices).signal_line.length = prices.length ∧
     (taMACDcore fast slow sigp prices).histogram.length = prices.length) ∧
    (∀ i < prices.length,
      (((taMACDcore fast slow sigp prices).macd_line.getD i none = none ↔
          i < max fast slow + sigp - 2) ∧
       ((taMACDcore fast slow sigp prices).signal_line.getD i none = none ↔
          i < max fast slow + sigp - 2) ∧
       ((taMACDcore fast slow sigp prices).histogram.getD i none = none ↔
          i < max fast slow + sigp - 2))) := by
  have hmin : min fast slow = fast := min_eq_left (le_of_lt hfs)
  have hmax : max fast slow = slow := max_eq_right (le_of_lt hfs)
  unfold taMACDcore
  rw [hmin, hmax]
  dsimp only
  set n := prices.length with hn
  set s1 := slow - 1 with hs1
  set g1 := sigp - 1 with hg1
  set A := taEMAFrom prices slow s1 with hA
  set B := taEMAFrom prices fast s1 with hB
  set M := List.zipWith (fun a b => a - b) B A with hM
  set S := taEMAFrom M sigp g1 with hS
  have hAlen : A.length = if s1 < n then n - s1 else 0 := by
    rw [hA, taEMAFrom_length]
    have hiff : (s1 < n ∧ slow - 1 ≤ s1 ∧ 0 < slow) ↔ s1 < n :=
      ⟨fun h => h.1, fun h => ⟨h, le_refl _, by omega⟩⟩
    simp only [hiff]
  have hBlen : B.length = if s1 < n then n - s1 else 0 := by
    rw [hB, taEMAFrom_length]
    have hiff : (s1 < n ∧ fast - 1 ≤ s1 ∧ 0 < fast) ↔ s1 < n :=
      ⟨fun h => h.1, fun h => ⟨h, by omega, by omega⟩⟩
    simp only [hiff]
  have hMlen : M.length = if s1 < n then n - s1 else 0 := by
    rw [hM, List.length_zipWith, hBlen, hAlen]
    split <;> simp
  have hSlen : S.length = n - (s1 + g1) := by
    rw [hS, taEMAFrom_length]
    have hiff : (g1 < M.length ∧ sigp - 1 ≤ g1 ∧ 0 < sigp) ↔ g1 < M.length :=
      ⟨fun h => h.1, fun h => ⟨h, le_refl _, by omega⟩⟩
    simp only [hiff]
    rw [hMlen]
    by_cases h1 : s1 < n
    · rw [if_pos h1]
      split <;> omega
    · rw [if_neg h1]
      split <;> omega
  have hOlen : (M.drop g1).length = n - (s1 + g1) := by
    rw [List.length_drop, hMlen]
    split <;> omega
  have hHlen : (List.zipWith (fun a b => a - b) (M.drop g1) S).length = n - (s1 + g1) := by
    rw [List.length_zipWith, hOlen, hSlen]
    omega
  have hLrw : slow + sigp - 2 = s1 + g1 := by
    omega
  obtain ⟨hl1, hc1⟩ := padded_line (s1 + g1) n (M.drop g1) hOlen
  obtain ⟨hl2, hc2⟩ := padded_line (s1 + g1) n S hSlen
  obtain ⟨hl3, hc3⟩ := padded_line (s1 + g1) n
    (List.zipWith (fun a b => a - b) (M.drop g1) S) hHlen
  rw [hLrw]
  exact ⟨⟨hl1, hl2, hl3⟩, fun i hi => ⟨hc1 i hi, hc2 i hi, hc3 i hi⟩⟩

/-- Witness for `C2_output_shape` at periods (2, 3, 1) on [1, 2, 3]. -/
theorem C2_output_shape_witness :
    (taMACDcore 2 3 1 [1, 2, 3]).macd_line.length = ([1, 2, 3] : List ℚ).length ∧
    ((taMACDcore 2 3 1 [1, 2, 3]).macd_line.getD 0 none = none ↔
      0 < max 2 3 + 1 - 2) :=
  ⟨(C2_output_shape 2 3 1 [1, 2, 3] (by norm_num) (by norm_num) (by norm_num)).1.1,
   ((C2_output_shape 2 3 1 [1, 2, 3] (by norm_num) (by norm_num) (by norm_num)).2
      0 (by norm_num)).1⟩

/-- Claim C2, counterexample: with the default periods (12, 26, 9) on
a 40-bar constant close series, the indicator value at index
33 = 26+9-2 is already defined (it is 0), although the claimed warm-up
length max(12,26)+9-1 = 34 would make every index below 34
undefined. -/
theorem C2_counterexample :
    (taMACDcore 12 26 9 (List.replicate 40 (100 : ℚ))).macd_line.getD 33 none
        = some 0 ∧
    33 < max 12 26 + 9 - 1 := by
  constructor
  · norm_num [taMACDcore, taEMAFrom, emaStep, List.scanl, List.replicate_succ,
      List.getD_cons_succ, List.getD_cons_zero]
  · norm_num

/-! ## Parameter handling (C6) -/

lemma taMACDcore_swap (fast slow sigp : ℕ) (prices : List ℚ) :
    taMACDcore fast slow sigp prices = taMACDcore slow fast sigp prices := by
  unfold taMACDcore
  rw [min_comm fast slow, max_comm fast slow]

/-- Claim C6 (amended): `MACDStrategy.__init__` performs no validation
and succeeds for every parameter triple, and the indicator does not
reject `fast_period ≥ slow_period` either: TA-Lib silently swaps the
two periods, so `talib.MACD` behaves identically under exchange of
fast and slow.  No `InvalidParameter` failure exists anywhere. -/
theorem C6_no_validation (fast slow sigp : ℤ) (prices : List ℚ) :
    (MACDStrategy.init fast slow sigp = Except.ok ⟨fast, slow, sigp, 0, none⟩) ∧
    (taMACD fast slow sigp prices = taMACD slow fast sigp prices) := by
  refine ⟨rfl, ?_⟩
  unfold taMACD
  by_cases h : 2 ≤ fast ∧ fast ≤ 100000 ∧ 2 ≤ slow ∧ slow ≤ 100000 ∧
      1 ≤ sigp ∧ sigp ≤ 100000
  · rw [if_pos h, if_pos (by tauto), taMACDcore_swap]
  · rw [if_neg h, if_neg (by tauto)]

/-- Claim C6, counterexample: with fast_period = 26 ≥ slow_period = 12
both construction and a 40-bar `generate_signals` run succeed — no
`InvalidParameter` error is raised anywhere. -/
theorem C6_counterexample :
    MACDStrategy.init 26 12 9 = Except.ok ⟨26, 12, 9, 0, none⟩ ∧
    (MACDStrategy.generate_signals ⟨26, 12, 9, 0, none⟩
        (List.replicate 40 (100 : ℚ))).toOption.isSome = true := by
  refine ⟨rfl, ?_⟩
  unfold MACDStrategy.generate_signals MACDStrategy.calculate_macd taMACD
  rw [if_pos (by norm_num)]
  rfl

/-! ## Backtest adapter (`src/backtest.py`, `create_macd_strategy`) -/

/-- The trading state the backtesting library keeps for the adapter
strategy: available cash, the open position quantity (`none` when
flat; `self.position` is falsy exactly then — the `Option` field also
makes "at most one open position" structural) and the orders submitted
so far (`true` = buy, with the requested size). -/
structure SimState where
  cash : ℚ
  posQty : Option ℚ
  orders : List (Bool × ℚ)
deriving DecidableEq

/-- `MACDBacktestStrategy.next` (built by `create_macd_strategy`):
skip the first `max(fast, slow, signal) + 10` bars; read the current
`Signal` entry and the previous one (`0` when fewer than two bars are
revealed; the column is integer-valued, so the `np.isnan` guard never
fires); on `Signal = 1` with previous `≠ 1` buy `size = position_size`
if there is no open position; on `Signal = -1` with previous `≠ -1`
close the open position if there is one; in every other case do
nothing.  The external order execution of the backtesting library is
abstracted by `buyFill` and `closeFill`. -/
def MACDBacktestStrategy.next (fast slow sigp : ℕ) (psize : ℚ)
    (buyFill : SimState → ℚ → SimState) (closeFill : SimState → SimState)
    (signals : List ℤ) (t : ℕ) (st : SimState) : SimState :=
  if t + 1 < max (max fast slow) sigp + 10 then st
  else
    let cur := signals.getD t 0
    let prev := if 1 ≤ t then signals.getD (t - 1) 0 else 0
    if cur = 1 ∧ prev ≠ 1 then
      (if st.posQty = none then buyFill st psize else st)
    else if cur = -1 ∧ prev ≠ -1 then
      (if st.posQty ≠ none then closeFill st else st)
    else st

/-- Claim C4: in the simulation step, a Sell signal arriving while the
state is Flat and a Buy signal arriving while a position is open are
no-ops: the state (cash, position, order list) is returned unchanged,
whatever the external fill functions do; together with the single
`Option`-valued position slot this keeps at most one position open. -/
theorem C4_noop (fast slow sigp : ℕ) (psize : ℚ)
    (buyFill : SimState → ℚ → SimState) (closeFill : SimState → SimState)
    (signals : List ℤ) (t : ℕ) (st : SimState) :
    (st.posQty = none → signals.getD t 0 = -1 →
      MACDBacktestStrategy.next fast slow sigp psize buyFill closeFill signals t st = st) ∧
    (∀ q : ℚ, st.posQty = some q → signals.getD t 0 = 1 →
      MACDBacktestStrategy.next fast slow sigp psize buyFill closeFill signals t st = st) := by
  constructor
  · intro hflat hsig
    unfold MACDBacktestStrategy.next
    dsimp only
    rw [hsig]
    split_ifs <;> simp_all
  · intro q hlong hsig
    unfold MACDBacktestStrategy.next
    dsimp only
    rw [hsig]
    split_ifs <;> simp_all

/-- Witness for `C4_noop`: a Sell at bar 20 while flat leaves the
state untouched, for a concrete fill semantics. -/
theorem C4_noop_witness :
    MACDBacktestStrategy.next 1 1 1 (4/5)
        (fun s q => ⟨s.cash - q, some q, (true, q) :: s.orders⟩)
        (fun s => ⟨s.cash, none, (false, 1) :: s.orders⟩)
        (List.replicate 20 0 ++ [-1]) 20 ⟨1000, none, []⟩
      = ⟨1000, none, []⟩ :=
  (C4_noop 1 1 1 (4/5)
    (fun s q => ⟨s.cash - q, some q, (true, q) :: s.orders⟩)
    (fun s => ⟨s.cash, none, (false, 1) :: s.orders⟩)
    (List.replicate 20 0 ++ [-1]) 20 ⟨1000, none, []⟩).1 rfl (by decide)

/-! ## Frame effects of `generate_signals` (C9)

To make mutation of the caller's DataFrame observable, frames live in
a heap of cells addressed by natural numbers; `df.copy()` allocates a
fresh cell (pandas `DataFrame.copy` defaults to a deep copy), while an
aliasing implementation (`result = df`) would reuse the caller's
reference and its writes would be visible through `df`. -/

/-- A pandas frame as far as `generate_signals` touches it: the input
close column and the five computed columns (empty until assigned). -/
structure Frame where
  close : List ℚ
  macdCol : List (Option ℚ)
  macdSignalCol : List (Option ℚ)
  macdHistCol : List (Option ℚ)
  signalCol : List ℤ
  positionCol : List ℤ
deriving DecidableEq

/-- A heap of frames addressed by allocation order. -/
structure PyHeap where
  cells : List Frame
deriving DecidableEq

def PyHeap.read (h : PyHeap) (r : ℕ) : Frame :=
  h.cells.getD r ⟨[], [], [], [], [], []⟩

def PyHeap.write (h : PyHeap) (r : ℕ) (f : Frame → Frame) : PyHeap :=
  ⟨h.cells.set r (f (h.read r))⟩

def PyHeap.alloc (h : PyHeap) (fr : Frame) : PyHeap × ℕ :=
  (⟨h.cells ++ [fr]⟩, h.cells.length)

lemma PyHeap.read_write_ne (h : PyHeap) (r r' : ℕ) (f : Frame → Frame)
    (hne : r ≠ r') : (h.write r f).read r' = h.read r' := by
  unfold PyHeap.read PyHeap.write
  rw [List.getD_eq_getElem?_getD, List.getD_eq_getElem?_getD,
    List.getElem?_set_ne hne]

lemma PyHeap.read_write_self (h : PyHeap) (r : ℕ) (f : Frame → Frame)
    (hr : r < h.cells.length) : (h.write r f).read r = f (h.read r) := by
  unfold PyHeap.read PyHeap.write
  rw [List.getD_eq_getElem?_getD, List.getElem?_set_self hr, Option.getD_some]
  rfl

lemma PyHeap.read_alloc_old (h : PyHeap) (fr : Frame) (r : ℕ)
    (hr : r < h.cells.length) : (h.alloc fr).1.read r = h.read r := by
  unfold PyHeap.read PyHeap.alloc
  rw [List.getD_eq_getElem?_getD, List.getD_eq_getElem?_getD,
    List.getElem?_append_left hr]

lemma PyHeap.read_alloc_new (h : PyHeap) (fr : Frame) :
    (h.alloc fr).1.read h.cells.length = fr := by
  unfold PyHeap.read PyHeap.alloc
  rw [List.getD_eq_getElem?_getD, List.getElem?_concat_length, Option.getD_some]

lemma PyHeap.write_length (h : PyHeap) (r : ℕ) (f : Frame → Frame) :
    (h.write r f).cells.length = h.cells.length := by
  unfold PyHeap.write
  rw [List.length_set]

/-- The statement sequence of `MACDStrategy.generate_signals` acting on
the heap, `dfRef` being the caller's frame: `result = df.copy()`
allocates a fresh cell with the same contents; the indicator is
computed from `df['Close']`; the three indicator columns, the two
initialized columns and the loop's writes all target `result`; the
returned reference is `result`. -/
def generate_signals_heap (fast slow sigp : ℕ) (pos0 : ℤ) (h0 : PyHeap)
    (dfRef : ℕ) : PyHeap × ℕ × ℤ :=
  let df := h0.read dfRef
  let a := h0.alloc df
  let h1 := a.1
  let resultRef := a.2
  let r := taMACDcore fast slow sigp df.close
  let h2 := h1.write resultRef (fun fr => { fr with macdCol := r.macd_line })
  let h3 := h2.write resultRef (fun fr => { fr with macdSignalCol := r.signal_line })
  let h4 := h3.write resultRef (fun fr => { fr with macdHistCol := r.histogram })
  let out := generateSignalsCore r.macd_line r.signal_line df.close.length pos0
  let h5 := h4.write resultRef (fun fr => { fr with signalCol := out.signals })
  let h6 := h5.write resultRef (fun fr => { fr with positionCol := out.positions })
  (h6, resultRef, out.finalPos)

/-- Claim C9: `generate_signals` never mutates the caller's DataFrame:
after the call the caller's frame is unchanged, the computed columns
live only in the fresh copy, and that copy (with the close column of
the input and the computed columns filled in) is the returned frame. -/
theorem C9_no_input_mutation (fast slow sigp : ℕ) (pos0 : ℤ) (h0 : PyHeap)
    (dfRef : ℕ) (href : dfRef < h0.cells.length) :
    ((generate_signals_heap fast slow sigp pos0 h0 dfRef).1.read dfRef
        = h0.read dfRef) ∧
    ((generate_signals_heap fast slow sigp pos0 h0 dfRef).2.1 ≠ dfRef) ∧
    ((generate_signals_heap fast slow sigp pos0 h0 dfRef).1.read
        (generate_signals_heap fast slow sigp pos0 h0 dfRef).2.1
      = { h0.read dfRef with
          macdCol := (taMACDcore fast slow sigp (h0.read dfRef).close).macd_line
          macdSignalCol := (taMACDcore fast slow sigp (h0.read dfRef).close).signal_line
          macdHistCol := (taMACDcore fast slow sigp (h0.read dfRef).close).histogram
          signalCol := (generateSignalsCore
              (taMACDcore fast slow sigp (h0.read dfRef).close).macd_line
              (taMACDcore fast slow sigp (h0.read dfRef).close).signal_line
              (h0.read dfRef).close.length pos0).signals
          positionCol := (generateSignalsCore
              (taMACDcore fast slow sigp (h0.read dfRef).close).macd_line
              (taMACDcore fast slow sigp (h0.read dfRef).close).signal_line
              (h0.read dfRef).close.length pos0).positions }) := by
  have hne : h0.cells.length ≠ dfRef := by omega
  unfold generate_signals_heap
  dsimp only
  have h2eq : (h0.alloc (h0.read dfRef)).2 = h0.cells.length := rfl
  rw [h2eq]
  have hlen1 : ((h0.alloc (h0.read dfRef)).1).cells.length = h0.cells.length + 1 := by
    unfold PyHeap.alloc
    rw [List.length_append]
    rfl
  refine ⟨?_, hne, ?_⟩
  · rw [PyHeap.read_write_ne _ _ _ _ hne, PyHeap.read_write_ne _ _ _ _ hne,
      PyHeap.read_write_ne _ _ _ _ hne, PyHeap.read_write_ne _ _ _ _ hne,
      PyHeap.read_write_ne _ _ _ _ hne,
      PyHeap.read_alloc_old _ _ _ href]
  · have hbound : h0.cells.length
        < ((h0.alloc (h0.read dfRef)).1).cells.length := by omega
    rw [PyHeap.read_write_self _ _ _
        (by rw [PyHeap.write_length, PyHeap.write_length, PyHeap.write_length,
          PyHeap.write_length]; exact hbound),
      PyHeap.read_write_self _ _ _
        (by rw [PyHeap.write_length, PyHeap.write_length, PyHeap.write_length]
            exact hbound),
      PyHeap.read_write_self _ _ _
        (by rw [PyHeap.write_length, PyHeap.write_length]; exact hbound),
      PyHeap.read_write_self _ _ _ (by rw [PyHeap.write_length]; exact hbound),
      PyHeap.read_write_self _ _ _ hbound,
      PyHeap.read_alloc_new]

/-- Witness for `C9_no_input_mutation`: a one-cell heap holding a
3-bar frame. -/
theorem C9_no_input_mutation_witness :
    ((generate_signals_heap 2 3 2 0 ⟨[⟨[1, 2, 3], [], [], [], [], []⟩]⟩ 0).1.read 0
        = PyHeap.read ⟨[⟨[1, 2, 3], [], [], [], [], []⟩]⟩ 0) ∧
    ((generate_signals_heap 2 3 2 0 ⟨[⟨[1, 2, 3], [], [], [], [], []⟩]⟩ 0).2.1 ≠ 0) :=
  ⟨(C9_no_input_mutation 2 3 2 0 ⟨[⟨[1, 2, 3], [], [], [], [], []⟩]⟩ 0 (by norm_num)).1,
   (C9_no_input_mutation 2 3 2 0 ⟨[⟨[1, 2, 3], [], [], [], [], []⟩]⟩ 0 (by norm_num)).2.1⟩

/-! ## Data preparation (`BacktestRunner._prepare_data`, C5) -/

/-- One row of the OHLCV frame handed to the backtest: the index
timestamp and the five columns; `none` is a not-a-number entry. -/
structure RawRow where
  ts : ℤ
  openV : Option ℚ
  highV : Option ℚ
  lowV : Option ℚ
  closeV : Option ℚ
  volV : Option ℚ
deriving DecidableEq

/-- The five column names `_prepare_data` requires. -/
def requiredColumns : List String := ["Open", "High", "Low", "Close", "Volume"]

/-- A row survives `dropna` iff every column entry is defined. -/
def rowComplete (r : RawRow) : Bool :=
  r.openV.isSome && r.highV.isSome && r.lowV.isSome && r.closeV.isSome &&
    r.volV.isSome

/-- `BacktestRunner._prepare_data`: raise `ValueError` when a required
column is missing; otherwise drop the not-a-number rows (`dropna`) and
sort the rows by the index (`sort_index`, modelled by a stable
insertion sort on the timestamp).  The closing status print reads
`self.data.index[0]` and `self.data.index[-1]`, which raises
`IndexError` when every row was dropped (or the frame was empty).  The
body contains no price positivity check and no timestamp monotonicity
check. -/
def prepare_data (cols : List String) (rows : List RawRow) :
    Except String (List RawRow) :=
  if requiredColumns.all (fun c => cols.contains c) then
    let sorted := List.insertionSort (fun a b => a.ts ≤ b.ts)
      (rows.filter (fun r => rowComplete r))
    if sorted = [] then .error "IndexError: index 0 is out of bounds"
    else .ok sorted
  else
    .error "ValueError: missing required column"

/-- Claim C5 (amended): `_prepare_data` performs no price or timestamp
validation.  With the five required columns present it fails only when
`dropna` leaves no row at all (an `IndexError` from reading
`index[0]`, not an `InvalidData` error); whenever at least one
complete row remains it succeeds, returning the not-a-number-free rows
reordered into ascending timestamp order — non-positive prices are
kept and non-monotonic timestamps are silently sorted rather than
rejected. -/
theorem C5_prepare_data_no_validation (cols : List String) (rows : List RawRow)
    (hcols : requiredColumns.all (fun c => cols.contains c) = true) :
    (rows.filter (fun r => rowComplete r) = [] →
      prepare_data cols rows = .error "IndexError: index 0 is out of bounds") ∧
    (rows.filter (fun r => rowComplete r) ≠ [] →
      ∃ out : List RawRow, prepare_data cols rows = .ok out ∧
        out.Perm (rows.filter (fun r => rowComplete r)) ∧
        List.Pairwise (fun a b => a.ts ≤ b.ts) out) := by
  haveI htot : IsTotal RawRow (fun a b => a.ts ≤ b.ts) :=
    ⟨fun a b => le_total a.ts b.ts⟩
  haveI htr : IsTrans RawRow (fun a b => a.ts ≤ b.ts) :=
    ⟨fun _ _ _ hab hbc => le_trans hab hbc⟩
  constructor
  · intro hempty
    rw [prepare_data, if_pos hcols]
    dsimp only
    rw [hempty]
    rfl
  · intro hne
    have hperm : (List.insertionSort (fun a b : RawRow => a.ts ≤ b.ts)
        (rows.filter (fun r => rowComplete r))).Perm
          (rows.filter (fun r => rowComplete r)) :=
      List.perm_insertionSort _ _
    have hsne : List.insertionSort (fun a b : RawRow => a.ts ≤ b.ts)
        (rows.filter (fun r => rowComplete r)) ≠ [] := by
      intro hcon
      exact hne ((hcon ▸ hperm).symm.eq_nil)
    refine ⟨_, ?_, hperm, List.sorted_insertionSort _ _⟩
    rw [prepare_data, if_pos hcols]
    dsimp only
    rw [if_neg hsne]

/-- Witness for `C5_prepare_data_no_validation` on two out-of-order
rows, one with close price 0: the success branch applies. -/
theorem C5_prepare_data_no_validation_witness :
    ∃ out : List RawRow,
      prepare_data requiredColumns
          [⟨2, some 1, some 1, some 1, some 0, some 1⟩,
           ⟨1, some 1, some 1, some 1, some 1, some 1⟩] = .ok out ∧
      out.Perm (List.filter (fun r => rowComplete r)
          [⟨2, some 1, some 1, some 1, some 0, some 1⟩,
           ⟨1, some 1, some 1, some 1, some 1, some 1⟩]) ∧
      List.Pairwise (fun a b : RawRow => a.ts ≤ b.ts) out :=
  (C5_prepare_data_no_validation requiredColumns
    [⟨2, some 1, some 1, some 1, some 0, some 1⟩,
     ⟨1, some 1, some 1, some 1, some 1, some 1⟩] (by decide)).2 (by decide)

/-- Claim C5, counterexample: a two-row input whose close price at
timestamp 2 is 0 (non-positive) and whose timestamps arrive in
decreasing order is not rejected: `_prepare_data` returns a result (the
rows silently reordered), so the backtest does not fail with
`InvalidData`. -/
theorem C5_counterexample :
    prepare_data requiredColumns
        [⟨2, some 1, some 1, some 1, some 0, some 1⟩,
         ⟨1, some 1, some 1, some 1, some 1, some 1⟩]
      = Except.ok
        [⟨1, some 1, some 1, some 1, some 1, some 1⟩,
         ⟨2, some 1, some 1, some 1, some 0, some 1⟩] ∧
    ((0 : ℚ) ≤ 0 ∧ (1 : ℤ) < 2) := by
  constructor
  · rfl
  · norm_num

/-! ## Optimizer grid (`BacktestRunner.optimize_strategy`, C8) -/

/-- Python `range(lo, hi)`: the integers `lo, lo+1, …, hi-1`; the upper
bound is excluded. -/
def pyRange (lo hi : ℤ) : List ℤ :=
  (List.range (hi - lo).toNat).map (fun k : ℕ => lo + (k : ℤ))

/-- `np.arange(lo, hi, step)` over exact rationals: `lo + k·step` for
`0 ≤ k < ⌈(hi-lo)/step⌉`. -/
def npArange (lo hi step : ℚ) : List ℚ :=
  (List.range (⌈(hi - lo) / step⌉).toNat).map (fun k : ℕ => lo + (k : ℚ) * step)

/-- One candidate parameter assignment of the optimizer. -/
structure ParamCombo where
  fast_period : ℤ
  slow_period : ℤ
  signal_period : ℤ
  position_size : ℚ
deriving DecidableEq

/-- Modelled from the spec: the grid search of the external backtesting
library's `Backtest.optimize` (not part of this repository), which
`optimize_strategy` invokes; the specification describes it as
"Enumerates the Cartesian product of ranges in a fixed, deterministic
order; discards combinations failing the constraint". -/
def gridCombos (fasts slows sigs : List ℤ) (sizes : List ℚ)
    (constraint : ParamCombo → Bool) : List ParamCombo :=
  (fasts.flatMap fun f => slows.flatMap fun s => sigs.flatMap fun g =>
      sizes.map fun z => ParamCombo.mk f s g z).filter constraint

/-- The grid `BacktestRunner.optimize_strategy` submits:
`range(*fast_range)`, `range(*slow_range)`, `range(*signal_range)`
(Python `range`, upper bound excluded),
`np.arange(*position_size_range, 0.1)`, and the constraint
`lambda p: p.fast_period < p.slow_period`. -/
def optimize_strategy_combos (fastR slowR sigR : ℤ × ℤ) (sizeR : ℚ × ℚ) :
    List ParamCombo :=
  gridCombos (pyRange fastR.1 fastR.2) (pyRange slowR.1 slowR.2)
    (pyRange sigR.1 sigR.2) (npArange sizeR.1 sizeR.2 (1/10))
    (fun p => decide (p.fast_period < p.slow_period))

lemma mem_pyRange (lo hi x : ℤ) : x ∈ pyRange lo hi ↔ lo ≤ x ∧ x < hi := by
  unfold pyRange
  rw [List.mem_map]
  constructor
  · rintro ⟨k, hk, rfl⟩
    rw [List.mem_range] at hk
    omega
  · rintro ⟨h1, h2⟩
    refine ⟨(x - lo).toNat, ?_, by omega⟩
    rw [List.mem_range]
    omega

lemma mem_optimize_strategy_combos (flo fhi slo shi glo ghi : ℤ) (zlo zhi : ℚ)
    (p : ParamCombo) :
    p ∈ optimize_strategy_combos (flo, fhi) (slo, shi) (glo, ghi) (zlo, zhi) ↔
      (flo ≤ p.fast_period ∧ p.fast_period < fhi) ∧
      (slo ≤ p.slow_period ∧ p.slow_period < shi) ∧
      (glo ≤ p.signal_period ∧ p.signal_period < ghi) ∧
      p.position_size ∈ npArange zlo zhi (1/10) ∧
      p.fast_period < p.slow_period := by
  unfold optimize_strategy_combos gridCombos
  rw [List.mem_filter]
  simp only [List.mem_flatMap, List.mem_map]
  constructor
  · rintro ⟨⟨f, hf, s, hs, g, hg, z, hz, rfl⟩, hc⟩
    rw [mem_pyRange] at hf hs hg
    exact ⟨hf, hs, hg, hz, by simpa using hc⟩
  · rintro ⟨hf, hs, hg, hz, hc⟩
    refine ⟨⟨p.fast_period, (mem_pyRange _ _ _).mpr hf,
      p.slow_period, (mem_pyRange _ _ _).mpr hs,
      p.signal_period, (mem_pyRange _ _ _).mpr hg,
      p.position_size, hz, rfl⟩, by simpa using hc⟩

/-- Claim C8 (amended): the optimizer's grid is the Cartesian product
of the Python `range`/`np.arange` value lists — the period ranges are
half-open, excluding the upper bound, not inclusive — filtered by
exactly the constraint `fast_period < slow_period`; the enumeration is
a pure function of the ranges, hence deterministic. -/
theorem C8_grid_membership (flo fhi slo shi glo ghi : ℤ) (zlo zhi : ℚ)
    (p : ParamCombo) :
    p ∈ optimize_strategy_combos (flo, fhi) (slo, shi) (glo, ghi) (zlo, zhi) ↔
      (flo ≤ p.fast_period ∧ p.fast_period < fhi) ∧
      (slo ≤ p.slow_period ∧ p.slow_period < shi) ∧
      (glo ≤ p.signal_period ∧ p.signal_period < ghi) ∧
      p.position_size ∈ npArange zlo zhi (1/10) ∧
      p.fast_period < p.slow_period :=
  mem_optimize_strategy_combos flo fhi slo shi glo ghi zlo zhi p

/-- Claim C8, counterexample: with the default ranges
fast ∈ (8, 16), slow ∈ (20, 30), signal ∈ (6, 12),
position_size ∈ (0.5, 1.0), the combination (16, 20, 6, 1/2) lies in
every inclusive range and satisfies fast < slow, yet it is never
enumerated: Python's `range(8, 16)` stops at 15. -/
theorem C8_counterexample :
    ParamCombo.mk 16 20 6 (1/2)
        ∉ optimize_strategy_combos (8, 16) (20, 30) (6, 12) (1/2, 1) ∧
    ((8 : ℤ) ≤ 16 ∧ (16 : ℤ) ≤ 16 ∧ (20 : ℤ) ≤ 20 ∧ (20 : ℤ) ≤ 30 ∧
      (6 : ℤ) ≤ 6 ∧ (6 : ℤ) ≤ 12 ∧ (16 : ℤ) < 20 ∧
      (1/2 : ℚ) ∈ npArange (1/2) 1 (1/10)) := by
  constructor
  · intro hmem
    have h := (mem_optimize_strategy_combos 8 16 20 30 6 12 (1/2) 1 _).mp hmem
    have hlt : (16 : ℤ) < 16 := h.1.2
    omega
  · refine ⟨by norm_num, by norm_num, by norm_num, by norm_num, by norm_num,
      by norm_num, by norm_num, ?_⟩
    unfold npArange
    rw [List.mem_map]
    refine ⟨0, ?_, by norm_num⟩
    rw [List.mem_range]
    norm_num

end TradingSys
